import Mathlib

/-!
Verification of the footprint cache synchronization layer of the isucon5
social-site backend (Go sources: the `seed` bulk loader and the web
application).  The relevant Go functions are shallowly embedded here:

* `InitializeFootprints`  — bulk rebuild of the Redis footprint cache from the
  `footprints` table (the Aggregation Engine / `rebuildAll`);
* `AddFootprintCache`     — incremental write-through of one new footprint
  (`applyVisit`);
* `FetchFootprintsCache`  — read of the most recent footprints for one user
  (`query` / `queryRecentVisitors`);
* `LoadRedisAof` (seed and webapp variants) and the aof-flag dispatch inside
  `GetInitialize` — the Recovery Manager.

Modelling conventions:
* Go `time.Time` values are modelled as exact (unbounded) nanosecond counts
  since the Unix epoch (`ℤ`).  Every `.UnixNano()` call of the source is
  modelled as `wrapInt64` of the exact instant — the two's-complement int64
  wraparound Go exhibits for instants outside roughly 1678–2262; in
  particular the zero `time.Time` (instant `zeroTimeUnixNano`) reads back as
  the wrapped `zeroTimeWrappedUnixNano` in every comparison, exactly as in
  the program.  All wall-clock locations are taken to be UTC (the
  containers run without a TZ setting), so `Year`/`Month`/`Day` of an instant
  are its civil UTC date.
* The Redis sorted set behind key `footprints:user_id:<n>` is modelled as a
  list of (member, score) pairs kept in ascending (score, member-bytes)
  order, exactly the order `ZRANGE` enumerates.  A member is either the
  serialized JSON of a `Footprint` (`Member.fp`) or an arbitrary byte string
  that does not decode (`Member.raw`), which models corrupted entries.
  Member byte order is the lexicographic order of `memberStr`; for two
  distinct members that can share one key and one score the comparison is
  decided at the `owner_id` decimal digits, where `memberStr` agrees with the
  byte order of the real JSON encoding.
* `json.Marshal` of a `Footprint` fails (and the Go code then calls
  `log.Fatalf`, aborting the process) exactly when one of its two timestamps
  has a year outside `[0, 9999]`; `marshalTimeOk` is that interval test.
  Functions that can abort the process this way return `Option`, `none`
  modelling the abort.
* `json.Unmarshal` into a fresh `Footprint` leaves the zero value on failure;
  the Go code ignores the error, which `decodeMember` mirrors.
-/

/-- One row of the `footprints` table / one cached entry, as in the Go struct
`Footprint`.  `UserID` is the profile being visited (the cache key), `OwnerID`
is the visitor; timestamps are nanosecond instants. -/
structure Footprint where
  UserID : ℤ
  OwnerID : ℤ
  CreatedAt : ℤ
  UpdatedAt : ℤ
deriving DecidableEq, Repr

/-- The composite grouping key used by `InitializeFootprints`, as in the Go
struct `FootprintGroup`. -/
structure FootprintGroup where
  UserID : ℤ
  OwnerID : ℤ
deriving DecidableEq, Repr

/-- A member of the Redis sorted set: either the JSON serialization of a
`Footprint`, or opaque bytes that do not decode to one. -/
inductive Member where
  | fp (f : Footprint)
  | raw (s : String)
deriving DecidableEq, Repr

/-- A (member, score) pair of a Redis sorted set. -/
structure Entry where
  member : Member
  score : ℤ
deriving DecidableEq, Repr

/-- Decimal rendering of the timestamp fields inside `memberStr`.  It stands
in for the RFC3339 text Go emits; the two encodings order identically
whenever the comparison is already decided at or before the `owner_id`
field, which covers every same-key same-score comparison between distinct
members arising from the embedded writers. -/
def timeFieldStr (t : ℤ) : String := toString t

/-- The serialized JSON bytes of a cached `Footprint`, with the Go field
order `user_id`, `owner_id`, `created_at`, `updated_at`. -/
def fpJsonStr (f : Footprint) : String :=
  "\x7b\"user_id\":" ++ toString f.UserID ++
  ",\"owner_id\":" ++ toString f.OwnerID ++
  ",\"created_at\":\"" ++ timeFieldStr f.CreatedAt ++
  "\",\"updated_at\":\"" ++ timeFieldStr f.UpdatedAt ++ "\"\x7d"

/-- The byte string of a sorted-set member. -/
def memberStr : Member → String
  | .fp f => fpJsonStr f
  | .raw s => s

/-- Byte-wise lexicographic comparison of character lists. -/
def lexLt : List Char → List Char → Bool
  | [], [] => false
  | [], _ :: _ => true
  | _ :: _, [] => false
  | a :: as, b :: bs =>
      if a.toNat < b.toNat then true
      else if b.toNat < a.toNat then false
      else lexLt as bs

/-- Byte-wise lexicographic comparison of strings (Redis member order for
equal scores). -/
def strLt (a b : String) : Bool := lexLt a.data b.data

/-- The total order a Redis sorted set keeps its entries in: ascending score,
ties by member byte order. -/
def entryLtB (a b : Entry) : Bool :=
  if a.score < b.score then true
  else if a.score = b.score then strLt (memberStr a.member) (memberStr b.member)
  else false

/-- Remove every occurrence of a member from a sorted-set list (the implicit
removal `ZADD` performs before re-inserting an existing member). -/
def zremMember (l : List Entry) (m : Member) : List Entry :=
  l.filter (fun e => !(e.member == m))

/-- Insert an entry at its sorted position. -/
def insertEntry (e : Entry) : List Entry → List Entry
  | [] => [e]
  | x :: xs => if entryLtB e x then e :: x :: xs else x :: insertEntry e xs

/-- Redis `ZADD key score member`: update the member's score if it is
present, otherwise insert it; the list stays sorted. -/
def zadd (l : List Entry) (m : Member) (s : ℤ) : List Entry :=
  insertEntry ⟨m, s⟩ (zremMember l m)

/-- The whole footprint keyspace: key `footprints:user_id:<n>` is modelled by
the integer `n` (the Go key strings are injective in `n`). -/
def CacheState := ℤ → List Entry

/-- The state with every view empty (a fresh or flushed Redis). -/
def emptyCache : CacheState := fun _ => []

/-- Pointwise update of a function, used for single-key cache writes. -/
def updFun {β : Type} (f : ℤ → β) (k : ℤ) (v : β) : ℤ → β :=
  fun x => if x = k then v else f x

/-- `ZADD` against the whole keyspace. -/
def zaddState (st : CacheState) (key : ℤ) (m : Member) (s : ℤ) : CacheState :=
  updFun st key (zadd (st key) m s)

/-- Redis `ZRANGE key start stop` on the sorted list of one key: a negative
`stop` counts from the end; the selected rank interval is `[start, stop]`. -/
def zrangeList (l : List Entry) (start stop : ℤ) : List Entry :=
  let stopIdx : ℤ := if stop < 0 then (l.length : ℤ) + stop else stop
  if stopIdx < start then []
  else (l.take (stopIdx.toNat + 1)).drop start.toNat

/-- The exact instant of the zero `time.Time` (year 1), the value the
`maxCreatedAt` map of `InitializeFootprints` holds for an absent group.
Calling `UnixNano()` on it wraps, see `zeroTimeWrappedUnixNano`. -/
def zeroTimeUnixNano : ℤ := -62135596800 * 1000000000

/-- Two's-complement int64 wraparound.  Go's `Time.UnixNano()` computes
`sec*1e9+nsec` in int64 arithmetic, which equals the exact nanosecond count
of the instant reduced into `[-2^63, 2^63)`; every `.UnixNano()` call of the
source is modelled as `wrapInt64` of the exact instant. -/
def wrapInt64 (n : ℤ) : ℤ :=
  (n + 9223372036854775808) % 18446744073709551616 - 9223372036854775808

/-- Go's wrapped `UnixNano()` of the zero `time.Time`: the value the
program effectively compares against for an absent `maxCreatedAt` group
(`wrapInt64 zeroTimeUnixNano`, roughly year 1754). -/
def zeroTimeWrappedUnixNano : ℤ := -6795364578871345152

/-- An instant whose exact nanosecond count fits int64 (strictly above the
minimum, so its negation also fits): `UnixNano()` returns it unchanged. -/
def fitsInt64 (t : ℤ) : Prop :=
  -9223372036854775808 < t ∧ t < 9223372036854775808

/-- The timestamp band on which the aggregation passes compute a true
maximum: above the wrapped zero-time sentinel (so the absent-group default
never wins a comparison) and within int64 (so `UnixNano()` does not wrap) —
roughly years 1754–2262, covering every MySQL `NOW()` value. -/
def faithfulTs (t : ℤ) : Prop :=
  zeroTimeWrappedUnixNano < t ∧ t < 9223372036854775808

/-- Nanoseconds per civil day. -/
def nanosPerDay : ℤ := 86400 * 1000000000

/-- The instant `0000-01-01T00:00:00Z`: the first instant whose year is ≥ 0. -/
def minMarshalNano : ℤ := -719528 * 86400 * 1000000000

/-- The instant `10000-01-01T00:00:00Z`: the first instant whose year
exceeds 9999. -/
def maxMarshalNanoEx : ℤ := 2932897 * 86400 * 1000000000

/-- Whether Go's `Time.MarshalJSON` accepts an instant: its year must lie in
`[0, 9999]`.  Expressed as the equivalent interval test on the instant. -/
def marshalTimeOk (t : ℤ) : Bool := minMarshalNano ≤ t && t < maxMarshalNanoEx

/-- Whether `json.Marshal` succeeds on a `Footprint` (both timestamps must be
marshalable; the integer fields never fail). -/
def marshalFpOk (f : Footprint) : Bool :=
  marshalTimeOk f.CreatedAt && marshalTimeOk f.UpdatedAt

/-- The zero value of the Go struct `Footprint` (what `json.Unmarshal` leaves
behind when it fails and the code ignores the error). -/
def zeroFootprint : Footprint := ⟨0, 0, zeroTimeUnixNano, zeroTimeUnixNano⟩

/-- Decoding of a stored member as done by the readers: a serialized
footprint decodes to itself, undecodable bytes leave the zero value. -/
def decodeMember : Member → Footprint
  | .fp f => f
  | .raw _ => zeroFootprint

/-- The JST offset (`time.FixedZone("Asia/Tokyo", 9*60*60)`) in nanoseconds. -/
def jstOffsetNano : ℤ := 9 * 3600 * 1000000000

/-- The date truncation `FetchFootprintsCache` applies:
`time.Date(t.Year(), t.Month(), t.Day(), 0,0,0,0, jst)`.  With the stored
times read in UTC, the civil date of `t` is its floor day, and midnight JST
of that date is the day start minus nine hours. -/
def truncateToJstDate (t : ℤ) : ℤ :=
  (Int.fdiv t nanosPerDay) * nanosPerDay - jstOffsetNano

/-- The per-entry post-processing of `FetchFootprintsCache`: decode (zero on
failure) and truncate `CreatedAt` to a JST date. -/
def fetchDecode (m : Member) : Footprint :=
  let f := decodeMember m
  { f with CreatedAt := truncateToJstDate f.CreatedAt }

/-- Go `FetchFootprintsCache(userId, limit)`: `ZRANGE key 0 (limit-1)`, then
decode every returned member (a failed decode is ignored, leaving the zero
value) and truncate its `CreatedAt` to a JST date. -/
def FetchFootprintsCache (st : CacheState) (userId limit : ℤ) : List Footprint :=
  (zrangeList (st userId) 0 (limit - 1)).map (fun e => fetchDecode e.member)

/-- One comparison step of the scan inside `AddFootprintCache`: the running
`maxCreatedAt` is an int64, and each cached entry's `CreatedAt.UnixNano()`
is the wrapped instant. -/
def maxScanStep (owner : ℤ) (m : ℤ) (e : Entry) : ℤ :=
  if (decodeMember e.member).OwnerID = owner ∧
      wrapInt64 (decodeMember e.member).CreatedAt > m then
    wrapInt64 (decodeMember e.member).CreatedAt
  else m

/-- The scan inside `AddFootprintCache`: fold over the whole view
(`ZRANGE key 0 -1`), starting from the wrapped `UnixNano()` of the new
footprint's own timestamp, taking the int64 maximum among the wrapped
timestamps of decoded entries of the same `OwnerID`. -/
def maxScan (l : List Entry) (owner : ℤ) (t : ℤ) : ℤ :=
  l.foldl (maxScanStep owner) (wrapInt64 t)

/-- Go `AddFootprintCache(footprint)` (the write-through `applyVisit`):
compute the maximum of the incoming timestamp and the cached timestamps of
the same visitor, rewrite the footprint with `CreatedAt = Unix(0, max)` and
`UpdatedAt = Unix(max, 0)` (the seconds/nanoseconds mixup of the source:
`max` nanoseconds reinterpreted as seconds is `max * 10^9` nanoseconds), and
`ZADD` its serialization with the int64 negation of `max` as score.  `none`
models the `log.Fatalf` abort when the rewritten struct cannot be
marshalled. -/
def AddFootprintCache (st : CacheState) (footprint : Footprint) : Option CacheState :=
  let m := maxScan (st footprint.UserID) footprint.OwnerID footprint.CreatedAt
  let newFp : Footprint := ⟨footprint.UserID, footprint.OwnerID, m, m * 1000000000⟩
  if marshalFpOk newFp then
    some (zaddState st footprint.UserID (Member.fp newFp) (wrapInt64 (-m)))
  else none

/-- Apply a list of footprints one at a time through `AddFootprintCache`
(each visit event reaching the write-through updater). -/
def applyAll : List Footprint → CacheState → Option CacheState
  | [], st => some st
  | f :: rest, st =>
      match AddFootprintCache st f with
      | none => none
      | some st' => applyAll rest st'

/-- One step of the first pass of `InitializeFootprints`: a scanned row
updates the `maxCreatedAt` map at its group when its wrapped `UnixNano()`
is strictly greater than the wrapped `UnixNano()` of the tracked time (the
zero time for an absent group). -/
def initStep (m : FootprintGroup → ℤ) (f : Footprint) : FootprintGroup → ℤ :=
  if wrapInt64 f.CreatedAt > wrapInt64 (m ⟨f.UserID, f.OwnerID⟩) then
    (fun x => if x = (⟨f.UserID, f.OwnerID⟩ : FootprintGroup) then f.CreatedAt else m x)
  else m

/-- First pass of `InitializeFootprints`: fold the scanned rows into the
`maxCreatedAt` map (an absent group reads as the zero time's `UnixNano`). -/
def initPass1 (records : List Footprint) : FootprintGroup → ℤ :=
  records.foldl initStep (fun _ => zeroTimeUnixNano)

/-- The canonical entry `InitializeFootprints` emits for a row's group: both
timestamps are the tracked maximum. -/
def canonicalOf (maxM : FootprintGroup → ℤ) (f : Footprint) : Footprint :=
  ⟨f.UserID, f.OwnerID, maxM ⟨f.UserID, f.OwnerID⟩, maxM ⟨f.UserID, f.OwnerID⟩⟩

/-- Second pass of `InitializeFootprints`: walk the buffered rows again,
skip groups already emitted (`isNotRequired`), and `ZADD` one canonical
entry per group with the int64 negation of the wrapped `UnixNano()` of the
tracked maximum as score. -/
def initPass2 (maxM : FootprintGroup → ℤ) :
    List Footprint → (FootprintGroup → Bool) → CacheState → CacheState
  | [], _, st => st
  | f :: rest, seen, st =>
      let g : FootprintGroup := ⟨f.UserID, f.OwnerID⟩
      if seen g then initPass2 maxM rest seen st
      else
        initPass2 maxM rest (fun x => if x = g then true else seen x)
          (zaddState st f.UserID (Member.fp (canonicalOf maxM f))
            (wrapInt64 (-(wrapInt64 (maxM g)))))

/-- Go `InitializeFootprints()` (the Aggregation Engine's `rebuildAll`),
applied to the scanned `footprints` rows and the current cache state.  It
performs no flush: pass 2 upserts into whatever views exist.  `none` models
the `log.Fatalf` abort if some emitted canonical entry cannot be marshalled
(each group's canonical entry carries that group's tracked maximum, so
checking every row's group is the same as checking every emitted entry). -/
def InitializeFootprints (records : List Footprint) (st : CacheState) : Option CacheState :=
  if records.all (fun f => marshalTimeOk (initPass1 records ⟨f.UserID, f.OwnerID⟩)) then
    some (initPass2 (initPass1 records) records (fun _ => false) st)
  else none

/-- Outcome of a startup/recovery routine that may `log.Fatalf`. -/
inductive StartupResult where
  | ready
  | fatal (msg : String)
deriving DecidableEq, Repr

/-- Whether a startup routine aborted the process. -/
def StartupResult.isFatal : StartupResult → Bool
  | .ready => false
  | .fatal _ => true

/-- The seed program's `LoadRedisAof`: `flushall` (fatal on failure), then
`os.Stat` the aof file: pipe it in when present (fatal if the pipe fails),
`log.Fatalf` when absent. -/
def LoadRedisAofSeed (flushOk aofExists pipeOk : Bool) : StartupResult :=
  if !flushOk then .fatal "Failed to flushall redis caches."
  else if aofExists then
    if pipeOk then .ready else .fatal "Failed to load aof"
  else .fatal "appendonly.aof isn't exists."

/-- The web application's `LoadRedisAof`: no flush, same stat/pipe logic. -/
def LoadRedisAofWeb (aofExists pipeOk : Bool) : StartupResult :=
  if aofExists then
    if pipeOk then .ready else .fatal "Failed to load aof"
  else .fatal "appendonly.aof isn't exists."

/-- The recovery-mode dispatch inside the web application's `GetInitialize`:
read `ISUCON5_REDIS_LOAD_AOF` and run `LoadRedisAof` exactly when it is
unset or empty.  The first component records whether the aof replay was
performed, the second its outcome. -/
def GetInitializeRecovery (loadAof : String) (aofExists pipeOk : Bool) :
    Bool × StartupResult :=
  if loadAof = "" then (true, LoadRedisAofWeb aofExists pipeOk)
  else (false, .ready)

/-- The timestamps of the event-store rows recorded for profile `P` by
visitor `v` (spec side: used to state "the true maximum `occurredAt`"). -/
def tsOf (records : List Footprint) (P v : ℤ) : List ℤ :=
  (records.filter (fun r => r.UserID == P && r.OwnerID == v)).map (fun r => r.CreatedAt)

/-- The maximum of a list of timestamps, `none` when empty (spec side). -/
def maxTs? : List ℤ → Option ℤ
  | [] => none
  | t :: ts =>
      match maxTs? ts with
      | none => some t
      | some m => some (max t m)

/-- The decoded visitor of a cached entry. -/
def entryOwner (e : Entry) : ℤ := (decodeMember e.member).OwnerID

/-- The decoded stored timestamp of a cached entry. -/
def entryCreated (e : Entry) : ℤ := (decodeMember e.member).CreatedAt

/-- The view for profile `P` holds a (visitor, lastVisitAt) pair — the
projection the spec's Convergence property compares views under. -/
def pairIn (st : CacheState) (P v t : ℤ) : Prop :=
  ∃ e ∈ st P, entryOwner e = v ∧ entryCreated e = t

/-- A stored view is well formed when it is strictly ascending in
(score, member bytes) — the invariant Redis keeps for a sorted set. -/
def viewSorted (l : List Entry) : Prop :=
  List.Chain' (fun a b => entryLtB a b = true) l

/-- The ordering the spec claims for query results: strictly descending by
`lastVisitAt` (`CreatedAt`), ties broken by ascending `OwnerID`. -/
def specQueryOrdered (l : List Footprint) : Prop :=
  List.Chain'
    (fun a b => b.CreatedAt < a.CreatedAt ∨ (b.CreatedAt = a.CreatedAt ∧ a.OwnerID < b.OwnerID)) l

theorem insertEntry_mem (e x : Entry) (l : List Entry) :
    e ∈ insertEntry x l ↔ e = x ∨ e ∈ l := by
  induction l with
  | nil => simp [insertEntry]
  | cons y ys ih =>
      by_cases h : entryLtB x y = true
      · simp [insertEntry, h]
      · rw [insertEntry, if_neg h]
        simp only [List.mem_cons, ih]
        tauto

theorem zremMember_mem (e : Entry) (l : List Entry) (m : Member) :
    e ∈ zremMember l m ↔ e ∈ l ∧ e.member ≠ m := by
  simp [zremMember, List.mem_filter]

theorem zadd_mem (e : Entry) (l : List Entry) (m : Member) (s : ℤ) :
    e ∈ zadd l m s ↔ e = ⟨m, s⟩ ∨ (e ∈ l ∧ e.member ≠ m) := by
  rw [zadd, insertEntry_mem, zremMember_mem]

theorem zaddState_same (st : CacheState) (k : ℤ) (m : Member) (s : ℤ) :
    zaddState st k m s k = zadd (st k) m s := by
  simp [zaddState, updFun]

theorem zaddState_other (st : CacheState) (k k' : ℤ) (m : Member) (s : ℤ)
    (h : k' ≠ k) : zaddState st k m s k' = st k' := by
  simp [zaddState, updFun, h]

theorem wrapInt64_eq_self (n : ℤ) (h1 : -9223372036854775808 ≤ n)
    (h2 : n < 9223372036854775808) : wrapInt64 n = n := by
  rw [wrapInt64, Int.emod_eq_of_lt (by omega) (by omega)]
  omega

theorem wrapInt64_zeroTime : wrapInt64 zeroTimeUnixNano = zeroTimeWrappedUnixNano := by
  decide

theorem faithfulTs_fits (t : ℤ) (h : faithfulTs t) : fitsInt64 t :=
  ⟨lt_trans (by decide) h.1, h.2⟩

theorem wrap_neg_wrap_eq (t : ℤ) (h : faithfulTs t) :
    wrapInt64 (-(wrapInt64 t)) = -t := by
  obtain ⟨h1, h2⟩ := h
  have h1' : (-6795364578871345152 : ℤ) < t := h1
  rw [wrapInt64_eq_self t (by omega) h2, wrapInt64_eq_self (-t) (by omega) (by omega)]

theorem initStep_apply (m : FootprintGroup → ℤ) (f : Footprint) (g : FootprintGroup) :
    initStep m f g =
      if g = (⟨f.UserID, f.OwnerID⟩ : FootprintGroup) then
        (if wrapInt64 f.CreatedAt > wrapInt64 (m g) then f.CreatedAt else m g)
      else m g := by
  by_cases ht : wrapInt64 f.CreatedAt > wrapInt64 (m ⟨f.UserID, f.OwnerID⟩)
  · rw [initStep, if_pos ht]
    by_cases hg : g = (⟨f.UserID, f.OwnerID⟩ : FootprintGroup)
    · subst hg
      rw [if_pos rfl, if_pos rfl, if_pos ht]
    · rw [if_neg hg, if_neg hg]
  · rw [initStep, if_neg ht]
    by_cases hg : g = (⟨f.UserID, f.OwnerID⟩ : FootprintGroup)
    · subst hg
      rw [if_pos rfl, if_neg ht]
    · rw [if_neg hg]

theorem initStep_apply_band (m : FootprintGroup → ℤ) (f : Footprint) (g : FootprintGroup)
    (hmv : m g = zeroTimeUnixNano ∨ faithfulTs (m g)) (hf : faithfulTs f.CreatedAt) :
    initStep m f g =
      if g = (⟨f.UserID, f.OwnerID⟩ : FootprintGroup) then max (m g) f.CreatedAt else m g := by
  rw [initStep_apply]
  by_cases hg : g = (⟨f.UserID, f.OwnerID⟩ : FootprintGroup)
  · rw [if_pos hg, if_pos hg]
    have hwt : wrapInt64 f.CreatedAt = f.CreatedAt :=
      wrapInt64_eq_self _ (le_of_lt (faithfulTs_fits _ hf).1) hf.2
    rcases hmv with h0 | hband
    · rw [h0, wrapInt64_zeroTime, hwt, if_pos hf.1]
      have h1 : zeroTimeUnixNano < zeroTimeWrappedUnixNano := by decide
      exact (max_eq_right (le_of_lt (lt_trans h1 hf.1))).symm
    · rw [hwt, wrapInt64_eq_self _ (le_of_lt (faithfulTs_fits _ hband).1) hband.2]
      by_cases hc : f.CreatedAt > m g
      · rw [if_pos hc]
        exact (max_eq_right (le_of_lt hc)).symm
      · rw [if_neg hc]
        exact (max_eq_left (not_lt.mp hc)).symm
  · rw [if_neg hg, if_neg hg]

theorem tsOf_cons (f : Footprint) (fs : List Footprint) (P v : ℤ) :
    tsOf (f :: fs) P v =
      if f.UserID = P ∧ f.OwnerID = v then f.CreatedAt :: tsOf fs P v else tsOf fs P v := by
  by_cases h : f.UserID = P ∧ f.OwnerID = v
  · rw [if_pos h]
    simp only [tsOf, List.filter_cons]
    rw [if_pos (by simp [h.1, h.2])]
    rfl
  · rw [if_neg h]
    simp only [tsOf, List.filter_cons]
    rw [if_neg (by simpa using h)]

theorem foldl_initStep_apply (l : List Footprint) :
    ∀ (m : FootprintGroup → ℤ) (g : FootprintGroup),
      (∀ r ∈ l, faithfulTs r.CreatedAt) →
      (m g = zeroTimeUnixNano ∨ faithfulTs (m g)) →
      (l.foldl initStep m) g = (tsOf l g.UserID g.OwnerID).foldl max (m g) := by
  induction l with
  | nil => intro m g _ _; rfl
  | cons f fs ih =>
      intro m g hl hmv
      have hf : faithfulTs f.CreatedAt := hl f (List.mem_cons_self _ _)
      have hrest : ∀ r ∈ fs, faithfulTs r.CreatedAt :=
        fun r hr => hl r (List.mem_cons_of_mem _ hr)
      have hstep := initStep_apply_band m f g hmv hf
      rw [List.foldl_cons, tsOf_cons]
      by_cases hg : g = (⟨f.UserID, f.OwnerID⟩ : FootprintGroup)
      · have hc : f.UserID = g.UserID ∧ f.OwnerID = g.OwnerID := by
          subst hg; exact ⟨rfl, rfl⟩
        have hstep' : (initStep m f) g = max (m g) f.CreatedAt := by
          rw [hstep, if_pos hg]
        have hmv' : (initStep m f) g = zeroTimeUnixNano ∨ faithfulTs ((initStep m f) g) := by
          rw [hstep']
          right
          rcases hmv with h0 | hband
          · rw [h0]
            have h1 : zeroTimeUnixNano < zeroTimeWrappedUnixNano := by decide
            rw [max_eq_right (le_of_lt (lt_trans h1 hf.1))]
            exact hf
          · exact ⟨lt_max_iff.mpr (Or.inl hband.1), max_lt hband.2 hf.2⟩
        rw [if_pos hc, List.foldl_cons, ih (initStep m f) g hrest hmv', hstep']
      · have hc : ¬(f.UserID = g.UserID ∧ f.OwnerID = g.OwnerID) := by
          intro hcc
          exact hg (by cases g; simp_all)
        have hstep' : (initStep m f) g = m g := by
          rw [hstep, if_neg hg]
        have hmv' : (initStep m f) g = zeroTimeUnixNano ∨ faithfulTs ((initStep m f) g) := by
          rw [hstep']
          exact hmv
        rw [if_neg hc, ih (initStep m f) g hrest hmv', hstep']

theorem initPass1_apply (records : List Footprint) (g : FootprintGroup)
    (hband : ∀ r ∈ records, faithfulTs r.CreatedAt) :
    initPass1 records g = (tsOf records g.UserID g.OwnerID).foldl max zeroTimeUnixNano :=
  foldl_initStep_apply records _ g hband (Or.inl rfl)

theorem maxTs?_eq_none_iff (l : List ℤ) : maxTs? l = none ↔ l = [] := by
  cases l with
  | nil => simp [maxTs?]
  | cons t ts =>
      simp only [maxTs?]
      cases maxTs? ts <;> simp

theorem maxTs?_spec (l : List ℤ) (m : ℤ) (h : maxTs? l = some m) :
    m ∈ l ∧ ∀ x ∈ l, x ≤ m := by
  induction l generalizing m with
  | nil => simp [maxTs?] at h
  | cons t ts ih =>
      rw [maxTs?] at h
      cases hts : maxTs? ts with
      | none =>
          rw [hts] at h
          obtain rfl : t = m := by simpa using h
          have : ts = [] := (maxTs?_eq_none_iff ts).mp hts
          subst this
          simp
      | some m' =>
          rw [hts] at h
          obtain rfl : max t m' = m := by simpa using h
          obtain ⟨hmem, hub⟩ := ih m' hts
          constructor
          · rcases max_choice t m' with h | h <;> rw [h]
            · exact List.mem_cons_self _ _
            · exact List.mem_cons_of_mem _ hmem
          · intro x hx
            rcases List.mem_cons.mp hx with rfl | hx
            · exact le_max_left _ _
            · exact le_trans (hub x hx) (le_max_right _ _)

theorem maxTs?_eq_of (l : List ℤ) (t : ℤ) (ht : t ∈ l) (hub : ∀ x ∈ l, x ≤ t) :
    maxTs? l = some t := by
  cases hm : maxTs? l with
  | none =>
      rw [maxTs?_eq_none_iff] at hm
      subst hm
      simp at ht
  | some m =>
      obtain ⟨hmem, hub'⟩ := maxTs?_spec l m hm
      have : m = t := le_antisymm (hub m hmem) (hub' t ht)
      rw [this]

theorem foldl_max_spec (l : List ℤ) (a : ℤ) :
    a ≤ l.foldl max a ∧ (∀ x ∈ l, x ≤ l.foldl max a) ∧
      (l.foldl max a = a ∨ l.foldl max a ∈ l) := by
  induction l generalizing a with
  | nil => simp
  | cons t ts ih =>
      rw [List.foldl_cons]
      obtain ⟨h1, h2, h3⟩ := ih (max a t)
      refine ⟨le_trans (le_max_left a t) h1, ?_, ?_⟩
      · intro x hx
        rcases List.mem_cons.mp hx with rfl | hx
        · exact le_trans (le_max_right a x) h1
        · exact h2 x hx
      · rcases h3 with h | h
        · rcases max_choice a t with hc | hc
          · exact Or.inl (h.trans hc)
          · exact Or.inr (List.mem_cons.mpr (Or.inl (h.trans hc)))
        · exact Or.inr (List.mem_cons.mpr (Or.inr h))

theorem maxTs?_of_foldl (l : List ℤ)
    (hlt : ∀ x ∈ l, zeroTimeUnixNano < x) (hne : l ≠ []) :
    maxTs? l = some (l.foldl max zeroTimeUnixNano) := by
  obtain ⟨_, h2, h3⟩ := foldl_max_spec l zeroTimeUnixNano
  rcases h3 with h | h
  · obtain ⟨x, hx⟩ := List.exists_mem_of_ne_nil l hne
    exact absurd (h ▸ h2 x hx) (not_le.mpr (hlt x hx))
  · exact maxTs?_eq_of l _ h h2

theorem canonicalOf_fp_inj (maxM : FootprintGroup → ℤ) (f f' : Footprint)
    (h : Member.fp (canonicalOf maxM f') = Member.fp (canonicalOf maxM f)) :
    (⟨f'.UserID, f'.OwnerID⟩ : FootprintGroup) = ⟨f.UserID, f.OwnerID⟩ := by
  simp only [Member.fp.injEq, canonicalOf, Footprint.mk.injEq] at h
  simp [h.1, h.2.1]

theorem initPass2_mem (maxM : FootprintGroup → ℤ) (l : List Footprint) :
    ∀ (seen : FootprintGroup → Bool) (st : CacheState) (P : ℤ) (e : Entry),
    e ∈ initPass2 maxM l seen st P ↔
      ((∃ f ∈ l, seen ⟨f.UserID, f.OwnerID⟩ = false ∧ f.UserID = P ∧
          e = ⟨Member.fp (canonicalOf maxM f), wrapInt64 (-(wrapInt64 (maxM ⟨f.UserID, f.OwnerID⟩)))⟩) ∨
       (e ∈ st P ∧ ¬ ∃ f ∈ l, seen ⟨f.UserID, f.OwnerID⟩ = false ∧ f.UserID = P ∧
          e.member = Member.fp (canonicalOf maxM f))) := by
  induction l with
  | nil =>
      intro seen st P e
      simp [initPass2]
  | cons f fs ih =>
      intro seen st P e
      by_cases hseen : seen ⟨f.UserID, f.OwnerID⟩ = true
      · rw [show initPass2 maxM (f :: fs) seen st = initPass2 maxM fs seen st by
          rw [initPass2]; simp [hseen]]
        rw [ih seen st P e]
        constructor
        · rintro (⟨f', hf', hsf', hP', he'⟩ | ⟨hst, hnot⟩)
          · exact Or.inl ⟨f', List.mem_cons_of_mem _ hf', hsf', hP', he'⟩
          · refine Or.inr ⟨hst, ?_⟩
            rintro ⟨f', hf', hsf', hP', he'⟩
            rcases List.mem_cons.mp hf' with rfl | hf'
            · rw [hseen] at hsf'; cases hsf'
            · exact hnot ⟨f', hf', hsf', hP', he'⟩
        · rintro (⟨f', hf', hsf', hP', he'⟩ | ⟨hst, hnot⟩)
          · rcases List.mem_cons.mp hf' with rfl | hf'
            · rw [hseen] at hsf'; cases hsf'
            · exact Or.inl ⟨f', hf', hsf', hP', he'⟩
          · refine Or.inr ⟨hst, ?_⟩
            rintro ⟨f', hf', hsf', hP', he'⟩
            exact hnot ⟨f', List.mem_cons_of_mem _ hf', hsf', hP', he'⟩
      · have hseenf : seen ⟨f.UserID, f.OwnerID⟩ = false := by
          cases h : seen ⟨f.UserID, f.OwnerID⟩
          · rfl
          · exact absurd h hseen
        rw [show initPass2 maxM (f :: fs) seen st =
            initPass2 maxM fs
              (fun x => if x = (⟨f.UserID, f.OwnerID⟩ : FootprintGroup) then true else seen x)
              (zaddState st f.UserID (Member.fp (canonicalOf maxM f))
                (wrapInt64 (-(wrapInt64 (maxM ⟨f.UserID, f.OwnerID⟩))))) by
          rw [initPass2]; simp [hseenf]]
        rw [ih (fun x => if x = (⟨f.UserID, f.OwnerID⟩ : FootprintGroup) then true else seen x)
            (zaddState st f.UserID (Member.fp (canonicalOf maxM f))
              (wrapInt64 (-(wrapInt64 (maxM ⟨f.UserID, f.OwnerID⟩))))) P e]
        have hgrp : ∀ f' : Footprint,
            (⟨f'.UserID, f'.OwnerID⟩ : FootprintGroup) = ⟨f.UserID, f.OwnerID⟩ →
            canonicalOf maxM f' = canonicalOf maxM f ∧ f'.UserID = f.UserID := by
          intro f' h
          have h1 : f'.UserID = f.UserID := congrArg FootprintGroup.UserID h
          have h2 : f'.OwnerID = f.OwnerID := congrArg FootprintGroup.OwnerID h
          exact ⟨by simp [canonicalOf, h1, h2], h1⟩
        constructor
        · rintro (⟨f', hf', hsf', hP', he'⟩ | ⟨hst', hnot'⟩)
          · by_cases hgg : (⟨f'.UserID, f'.OwnerID⟩ : FootprintGroup) = ⟨f.UserID, f.OwnerID⟩
            · rw [if_pos hgg] at hsf'; cases hsf'
            · rw [if_neg hgg] at hsf'
              exact Or.inl ⟨f', List.mem_cons_of_mem _ hf', hsf', hP', he'⟩
          · by_cases hP : P = f.UserID
            · subst hP
              rw [zaddState_same] at hst'
              rcases (zadd_mem e _ _ _).mp hst' with rfl | ⟨hstP, hne⟩
              · exact Or.inl ⟨f, List.mem_cons_self _ _, hseenf, rfl, rfl⟩
              · refine Or.inr ⟨hstP, ?_⟩
                rintro ⟨f', hf', hs, hu, hm⟩
                rcases List.mem_cons.mp hf' with rfl | hf'
                · exact hne hm
                · by_cases hgg :
                      (⟨f'.UserID, f'.OwnerID⟩ : FootprintGroup) = ⟨f.UserID, f.OwnerID⟩
                  · exact hne (by rw [hm, (hgrp f' hgg).1])
                  · exact hnot' ⟨f', hf', by rw [if_neg hgg]; exact hs, hu, hm⟩
            · rw [zaddState_other _ _ _ _ _ hP] at hst'
              refine Or.inr ⟨hst', ?_⟩
              rintro ⟨f', hf', hs, hu, hm⟩
              rcases List.mem_cons.mp hf' with rfl | hf'
              · exact hP hu.symm
              · by_cases hgg :
                    (⟨f'.UserID, f'.OwnerID⟩ : FootprintGroup) = ⟨f.UserID, f.OwnerID⟩
                · exact hP (((hgrp f' hgg).2 ▸ hu).symm)
                · exact hnot' ⟨f', hf', by rw [if_neg hgg]; exact hs, hu, hm⟩
        · have mkRight :
              e = (⟨Member.fp (canonicalOf maxM f), wrapInt64 (-(wrapInt64 (maxM ⟨f.UserID, f.OwnerID⟩)))⟩ : Entry) →
              f.UserID = P →
              (e ∈ zaddState st f.UserID (Member.fp (canonicalOf maxM f))
                  (wrapInt64 (-(wrapInt64 (maxM ⟨f.UserID, f.OwnerID⟩)))) P ∧
                ¬ ∃ f' ∈ fs,
                  (if (⟨f'.UserID, f'.OwnerID⟩ : FootprintGroup) = ⟨f.UserID, f.OwnerID⟩
                    then true else seen ⟨f'.UserID, f'.OwnerID⟩) = false ∧
                  f'.UserID = P ∧ e.member = Member.fp (canonicalOf maxM f')) := by
            rintro rfl hP
            constructor
            · rw [← hP, zaddState_same]
              exact (zadd_mem _ _ _ _).mpr (Or.inl rfl)
            · rintro ⟨f'', _, hs'', _, hm''⟩
              have := canonicalOf_fp_inj maxM f f'' hm''.symm
              rw [if_pos this] at hs''
              cases hs''
          rintro (⟨f', hf', hsf', hP', he'⟩ | ⟨hst, hnot⟩)
          · rcases List.mem_cons.mp hf' with rfl | hf'
            · exact Or.inr (mkRight he' hP')
            · by_cases hgg : (⟨f'.UserID, f'.OwnerID⟩ : FootprintGroup) = ⟨f.UserID, f.OwnerID⟩
              · refine Or.inr (mkRight ?_ ((hgrp f' hgg).2 ▸ hP'))
                rw [he', (hgrp f' hgg).1, hgg]
              · exact Or.inl ⟨f', hf', by rw [if_neg hgg]; exact hsf', hP', he'⟩
          · refine Or.inr ⟨?_, ?_⟩
            · by_cases hP : P = f.UserID
              · subst hP
                rw [zaddState_same]
                refine (zadd_mem _ _ _ _).mpr (Or.inr ⟨hst, ?_⟩)
                intro hm
                exact hnot ⟨f, List.mem_cons_self _ _, hseenf, rfl, hm⟩
              · rw [zaddState_other _ _ _ _ _ hP]
                exact hst
            · rintro ⟨f'', hf'', hs'', hu'', hm''⟩
              by_cases hgg :
                  (⟨f''.UserID, f''.OwnerID⟩ : FootprintGroup) = ⟨f.UserID, f.OwnerID⟩
              · rw [if_pos hgg] at hs''; cases hs''
              · rw [if_neg hgg] at hs''
                exact hnot ⟨f'', List.mem_cons_of_mem _ hf'', hs'', hu'', hm''⟩

theorem initialize_mem (records : List Footprint) (st st' : CacheState)
    (h : InitializeFootprints records st = some st') (P : ℤ) (e : Entry) :
    e ∈ st' P ↔
      ((∃ f ∈ records, f.UserID = P ∧
          e = ⟨Member.fp (canonicalOf (initPass1 records) f),
                wrapInt64 (-(wrapInt64 (initPass1 records ⟨f.UserID, f.OwnerID⟩)))⟩) ∨
       (e ∈ st P ∧ ¬ ∃ f ∈ records, f.UserID = P ∧
          e.member = Member.fp (canonicalOf (initPass1 records) f))) := by
  rw [InitializeFootprints] at h
  by_cases hm :
      records.all (fun f => marshalTimeOk (initPass1 records ⟨f.UserID, f.OwnerID⟩)) = true
  · rw [if_pos hm] at h
    obtain rfl : initPass2 (initPass1 records) records (fun _ => false) st = st' :=
      Option.some_injective _ h
    rw [initPass2_mem]
    constructor
    · rintro (⟨f, hf, _, hP, he⟩ | ⟨hst, hnot⟩)
      · exact Or.inl ⟨f, hf, hP, he⟩
      · refine Or.inr ⟨hst, ?_⟩
        rintro ⟨f, hf, hP, he⟩
        exact hnot ⟨f, hf, rfl, hP, he⟩
    · rintro (⟨f, hf, hP, he⟩ | ⟨hst, hnot⟩)
      · exact Or.inl ⟨f, hf, rfl, hP, he⟩
      · refine Or.inr ⟨hst, ?_⟩
        rintro ⟨f, hf, _, hP, he⟩
        exact hnot ⟨f, hf, hP, he⟩
  · rw [if_neg hm] at h
    cases h

theorem initialize_mem_empty (records : List Footprint) (st' : CacheState)
    (h : InitializeFootprints records emptyCache = some st') (P : ℤ) (e : Entry) :
    e ∈ st' P ↔
      ∃ f ∈ records, f.UserID = P ∧
        e = ⟨Member.fp (canonicalOf (initPass1 records) f),
              wrapInt64 (-(wrapInt64 (initPass1 records ⟨f.UserID, f.OwnerID⟩)))⟩ := by
  rw [initialize_mem records emptyCache st' h P e]
  constructor
  · rintro (h | ⟨hst, _⟩)
    · exact h
    · simp [emptyCache] at hst
  · exact Or.inl

theorem tsOf_mem_of_record (records : List Footprint) (f : Footprint)
    (hf : f ∈ records) (P v : ℤ) (hP : f.UserID = P) (hv : f.OwnerID = v) :
    f.CreatedAt ∈ tsOf records P v := by
  simp only [tsOf, List.mem_map, List.mem_filter]
  exact ⟨f, ⟨hf, by simp [hP, hv]⟩, rfl⟩

theorem initPass1_eq_maxTs? (records : List Footprint) (P v : ℤ)
    (hband : ∀ r ∈ records, faithfulTs r.CreatedAt)
    (hne : tsOf records P v ≠ []) :
    maxTs? (tsOf records P v) = some (initPass1 records ⟨P, v⟩) := by
  rw [initPass1_apply records _ hband]
  apply maxTs?_of_foldl
  · intro x hx
    simp only [tsOf, List.mem_map, List.mem_filter] at hx
    obtain ⟨r, ⟨hr, _⟩, rfl⟩ := hx
    have h0 : zeroTimeUnixNano < zeroTimeWrappedUnixNano := by decide
    exact lt_trans h0 (hband r hr).1
  · exact hne

theorem initPass1_band_of_mem (records : List Footprint) (f : Footprint)
    (hf : f ∈ records) (hband : ∀ r ∈ records, faithfulTs r.CreatedAt) :
    faithfulTs (initPass1 records ⟨f.UserID, f.OwnerID⟩) := by
  rw [initPass1_apply records _ hband]
  show faithfulTs ((tsOf records f.UserID f.OwnerID).foldl max zeroTimeUnixNano)
  obtain ⟨h1, h2, h3⟩ := foldl_max_spec (tsOf records f.UserID f.OwnerID) zeroTimeUnixNano
  rcases h3 with h | h
  · exfalso
    have hmem := tsOf_mem_of_record records f hf f.UserID f.OwnerID rfl rfl
    have hle := h2 _ hmem
    rw [h] at hle
    have h0 : zeroTimeUnixNano < zeroTimeWrappedUnixNano := by decide
    exact absurd hle (not_le.mpr (lt_trans h0 (hband f hf).1))
  · simp only [tsOf, List.mem_map, List.mem_filter] at h
    obtain ⟨r, ⟨hr, _⟩, hcr⟩ := h
    exact hcr ▸ hband r hr

theorem insertEntry_perm (e : Entry) (l : List Entry) :
    List.Perm (insertEntry e l) (e :: l) := by
  induction l with
  | nil => exact List.Perm.refl _
  | cons x xs ih =>
      rw [insertEntry]
      by_cases h : entryLtB e x = true
      · rw [if_pos h]
      · rw [if_neg h]
        exact List.Perm.trans (List.Perm.cons x ih) (List.Perm.swap e x xs)

theorem zadd_members_nodup (l : List Entry) (m : Member) (s : ℤ)
    (h : (l.map Entry.member).Nodup) : ((zadd l m s).map Entry.member).Nodup := by
  have hperm : List.Perm ((zadd l m s).map Entry.member)
      (m :: (zremMember l m).map Entry.member) :=
    (insertEntry_perm ⟨m, s⟩ (zremMember l m)).map Entry.member
  rw [hperm.nodup_iff, List.nodup_cons]
  constructor
  · intro hmem
    obtain ⟨e, he, hem⟩ := List.mem_map.mp hmem
    exact ((zremMember_mem e l m).mp he).2 hem
  · exact h.sublist (List.Sublist.map Entry.member (List.filter_sublist l))

theorem initPass2_members_nodup (maxM : FootprintGroup → ℤ) (l : List Footprint) :
    ∀ (seen : FootprintGroup → Bool) (st : CacheState),
    (∀ P : ℤ, ((st P).map Entry.member).Nodup) →
    ∀ P : ℤ, ((initPass2 maxM l seen st P).map Entry.member).Nodup := by
  induction l with
  | nil =>
      intro seen st h P
      simpa [initPass2] using h P
  | cons f fs ih =>
      intro seen st h P
      by_cases hs : seen ⟨f.UserID, f.OwnerID⟩ = true
      · rw [show initPass2 maxM (f :: fs) seen st = initPass2 maxM fs seen st by
          rw [initPass2]; simp [hs]]
        exact ih seen st h P
      · have hsf : seen ⟨f.UserID, f.OwnerID⟩ = false := by
          cases hc : seen ⟨f.UserID, f.OwnerID⟩
          · rfl
          · exact absurd hc hs
        rw [show initPass2 maxM (f :: fs) seen st =
            initPass2 maxM fs
              (fun x => if x = (⟨f.UserID, f.OwnerID⟩ : FootprintGroup) then true else seen x)
              (zaddState st f.UserID (Member.fp (canonicalOf maxM f))
                (wrapInt64 (-(wrapInt64 (maxM ⟨f.UserID, f.OwnerID⟩))))) by
          rw [initPass2]; simp [hsf]]
        apply ih
        intro Q
        by_cases hQ : Q = f.UserID
        · subst hQ
          rw [zaddState_same]
          exact zadd_members_nodup _ _ _ (h f.UserID)
        · rw [zaddState_other _ _ _ _ _ hQ]
          exact h Q

/-- The records of the spec's Example A: (P1,V1,100), (P1,V1,50), (P1,V2,80),
as scanned from the event store (the unscanned `UpdatedAt` column stays the
Go zero time). -/
def exC1records : List Footprint :=
  [⟨1, 1, 100, zeroTimeUnixNano⟩, ⟨1, 1, 50, zeroTimeUnixNano⟩, ⟨1, 2, 80, zeroTimeUnixNano⟩]

/-- C1 (amended): after `InitializeFootprints` runs on an empty cache over
records whose timestamps lie in the faithful band `faithfulTs` (above the
wrapped zero-time sentinel and within int64 — every real MySQL timestamp),
each profile's view has no two entries for one visitor, every entry is a
canonical visitor/max-timestamp entry ranked by the negated maximum, and
the canonical entry for visitor `v` with timestamp `t` is present exactly
when `t` is the true maximum `occurredAt` of the pair `(P, v)`.  For the
Example A records (1,1,100), (1,1,50), (1,2,80), the code's query
`FetchFootprintsCache(1, 10)` returns the visitors in order [1, 2] and the
stored view carries exactly the pairs [(1, 100), (2, 80)]; the `CreatedAt`
values the query itself returns are JST-date truncations of 100 and 80,
see the counterexample. -/
theorem C1_rebuild_aggregates_max :
    (∀ (records : List Footprint) (st' : CacheState),
      InitializeFootprints records emptyCache = some st' →
      (∀ r ∈ records, faithfulTs r.CreatedAt) →
      (∀ P : ℤ, ((st' P).map entryOwner).Nodup) ∧
      (∀ (P : ℤ) (e : Entry), e ∈ st' P →
        ∃ v t : ℤ, e = ⟨Member.fp ⟨P, v, t, t⟩, -t⟩) ∧
      (∀ P v t : ℤ, (⟨Member.fp ⟨P, v, t, t⟩, -t⟩ : Entry) ∈ st' P ↔
          maxTs? (tsOf records P v) = some t)) ∧
    (FetchFootprintsCache ((InitializeFootprints exC1records emptyCache).getD emptyCache)
        1 10).map (fun f => f.OwnerID) = [1, 2] ∧
    (((InitializeFootprints exC1records emptyCache).getD emptyCache) 1).map
        (fun e => (entryOwner e, entryCreated e)) = [(1, 100), (2, 80)] := by
  refine ⟨?_, by decide, by decide⟩
  intro records st' h hband
  have hchar := initialize_mem_empty records st' h
  have hmembers : ∀ P : ℤ, ((st' P).map Entry.member).Nodup := by
    rw [InitializeFootprints] at h
    by_cases hm : records.all
        (fun f => marshalTimeOk (initPass1 records ⟨f.UserID, f.OwnerID⟩)) = true
    · rw [if_pos hm] at h
      obtain rfl := Option.some_injective _ h
      exact initPass2_members_nodup _ records _ _ (fun P => by simp [emptyCache])
    · rw [if_neg hm] at h
      cases h
  refine ⟨?_, ?_, ?_⟩
  · intro P
    have hl : (st' P).Nodup := (hmembers P).of_map
    apply List.Nodup.map_on ?_ hl
    intro e₁ h₁ e₂ h₂ heq
    obtain ⟨f₁, hf₁, hP₁, he₁⟩ := (hchar P e₁).mp h₁
    obtain ⟨f₂, hf₂, hP₂, he₂⟩ := (hchar P e₂).mp h₂
    have ho₁ : entryOwner e₁ = f₁.OwnerID := by rw [he₁]; rfl
    have ho₂ : entryOwner e₂ = f₂.OwnerID := by rw [he₂]; rfl
    have hoo : f₁.OwnerID = f₂.OwnerID := by rw [← ho₁, ← ho₂, heq]
    rw [he₁, he₂, canonicalOf, canonicalOf, hP₁, hP₂, hoo]
  · intro P e he
    obtain ⟨f, hf, hP, hee⟩ := (hchar P e).mp he
    have hb := initPass1_band_of_mem records f hf hband
    refine ⟨f.OwnerID, initPass1 records ⟨f.UserID, f.OwnerID⟩, ?_⟩
    rw [hee, canonicalOf, wrap_neg_wrap_eq _ hb, hP]
  · intro P v t
    rw [hchar P _]
    constructor
    · rintro ⟨f, hf, hP, he⟩
      simp only [Entry.mk.injEq, Member.fp.injEq, canonicalOf, Footprint.mk.injEq] at he
      obtain ⟨⟨_, hv, htt, _⟩, _⟩ := he
      have hne : tsOf records P v ≠ [] := by
        intro h0
        have := tsOf_mem_of_record records f hf P v hP hv.symm
        rw [h0] at this
        simp at this
      rw [initPass1_eq_maxTs? records P v hband hne]
      rw [htt, hP, ← hv]
    · intro hmax
      obtain ⟨hmem, _⟩ := maxTs?_spec _ _ hmax
      simp only [tsOf, List.mem_map, List.mem_filter] at hmem
      obtain ⟨f, ⟨hf, hcond⟩, hct⟩ := hmem
      have hP : f.UserID = P := by
        have := (Bool.and_eq_true _ _).mp hcond
        exact beq_iff_eq.mp this.1
      have hv : f.OwnerID = v := by
        have := (Bool.and_eq_true _ _).mp hcond
        exact beq_iff_eq.mp this.2
      have hne : tsOf records P v ≠ [] := by
        intro h0
        rw [h0] at hmax
        simp [maxTs?] at hmax
      have ht : initPass1 records ⟨P, v⟩ = t := by
        have hh := initPass1_eq_maxTs? records P v hband hne
        rw [hh] at hmax
        exact Option.some_injective _ hmax
      have hb := initPass1_band_of_mem records f hf hband
      rw [hP, hv, ht] at hb
      refine ⟨f, hf, hP, ?_⟩
      rw [canonicalOf, hP, hv, ht, wrap_neg_wrap_eq t hb]

/-- C1 witness: the aggregation statement instantiated on the Example A
records, with both hypotheses discharged concretely. -/
theorem C1_rebuild_aggregates_max_witness :
    (⟨Member.fp ⟨1, 1, 100, 100⟩, -100⟩ : Entry) ∈
        ((InitializeFootprints exC1records emptyCache).getD emptyCache) 1 ↔
      maxTs? (tsOf exC1records 1 1) = some 100 :=
  (C1_rebuild_aggregates_max.1 exC1records
      ((InitializeFootprints exC1records emptyCache).getD emptyCache)
      rfl (by intro r hr; fin_cases hr <;> exact ⟨by decide, by decide⟩)).2.2 1 1 100

/-- C1 counterexample: the claim's Example A asserts `query(P1, 10)` yields
[(V1, 100), (V2, 80)], but the code's query `FetchFootprintsCache`
truncates every returned `CreatedAt` to a JST midnight: both pairs come
back with timestamp -32400e9 (midnight JST of 1970-01-01), not 100 and
80. -/
theorem C1_query_example_counterexample :
    (FetchFootprintsCache ((InitializeFootprints exC1records emptyCache).getD emptyCache)
        1 10).map (fun f => (f.OwnerID, f.CreatedAt)) =
      [(1, -32400000000000), (2, -32400000000000)] ∧
    (FetchFootprintsCache ((InitializeFootprints exC1records emptyCache).getD emptyCache)
        1 10).map (fun f => (f.OwnerID, f.CreatedAt)) ≠ [(1, 100), (2, 80)] := by
  constructor
  · decide
  · decide

theorem AddFootprintCache_eq (st : CacheState) (f : Footprint) :
    AddFootprintCache st f =
      if marshalFpOk ⟨f.UserID, f.OwnerID, maxScan (st f.UserID) f.OwnerID f.CreatedAt,
          maxScan (st f.UserID) f.OwnerID f.CreatedAt * 1000000000⟩ then
        some (zaddState st f.UserID
          (Member.fp ⟨f.UserID, f.OwnerID, maxScan (st f.UserID) f.OwnerID f.CreatedAt,
            maxScan (st f.UserID) f.OwnerID f.CreatedAt * 1000000000⟩)
          (wrapInt64 (-(maxScan (st f.UserID) f.OwnerID f.CreatedAt))))
      else none := rfl

theorem maxScanFold_spec (l : List Entry) (owner : ℤ) :
    ∀ m : ℤ, fitsInt64 m →
      (∀ e ∈ l, entryOwner e = owner → fitsInt64 (entryCreated e)) →
      m ≤ l.foldl (maxScanStep owner) m ∧
      (∀ e ∈ l, entryOwner e = owner → entryCreated e ≤ l.foldl (maxScanStep owner) m) ∧
      (l.foldl (maxScanStep owner) m = m ∨
        ∃ e ∈ l, entryOwner e = owner ∧ entryCreated e = l.foldl (maxScanStep owner) m) ∧
      fitsInt64 (l.foldl (maxScanStep owner) m) := by
  induction l with
  | nil =>
      intro m hm _
      exact ⟨le_refl m, by simp, Or.inl rfl, hm⟩
  | cons e₀ l ih =>
      intro m hm hl
      have hrest : ∀ e ∈ l, entryOwner e = owner → fitsInt64 (entryCreated e) :=
        fun e he ho => hl e (List.mem_cons_of_mem _ he) ho
      by_cases ho₀ : entryOwner e₀ = owner
      · have hfit₀ : fitsInt64 (entryCreated e₀) := hl e₀ (List.mem_cons_self _ _) ho₀
        have hw₀ : wrapInt64 (decodeMember e₀.member).CreatedAt =
            (decodeMember e₀.member).CreatedAt :=
          wrapInt64_eq_self _ (le_of_lt hfit₀.1) hfit₀.2
        by_cases hgt : (decodeMember e₀.member).CreatedAt > m
        · have hstep : maxScanStep owner m e₀ = (decodeMember e₀.member).CreatedAt := by
            rw [maxScanStep, hw₀, if_pos ⟨ho₀, hgt⟩]
          rw [List.foldl_cons, hstep]
          obtain ⟨h1, h2, h3, h4⟩ := ih (decodeMember e₀.member).CreatedAt hfit₀ hrest
          refine ⟨le_trans (le_of_lt hgt) h1, ?_, ?_, h4⟩
          · intro e he ho
            rcases List.mem_cons.mp he with rfl | he
            · exact h1
            · exact h2 e he ho
          · rcases h3 with h | ⟨e, he, hoe, hcreq⟩
            · exact Or.inr ⟨e₀, List.mem_cons_self _ _, ho₀, h.symm⟩
            · exact Or.inr ⟨e, List.mem_cons_of_mem _ he, hoe, hcreq⟩
        · have hstep : maxScanStep owner m e₀ = m := by
            rw [maxScanStep, hw₀, if_neg (fun hc => hgt hc.2)]
          rw [List.foldl_cons, hstep]
          obtain ⟨h1, h2, h3, h4⟩ := ih m hm hrest
          refine ⟨h1, ?_, ?_, h4⟩
          · intro e he ho
            rcases List.mem_cons.mp he with rfl | he
            · exact le_trans (not_lt.mp hgt) h1
            · exact h2 e he ho
          · rcases h3 with h | ⟨e, he, hoe, hcreq⟩
            · exact Or.inl h
            · exact Or.inr ⟨e, List.mem_cons_of_mem _ he, hoe, hcreq⟩
      · have hstep : maxScanStep owner m e₀ = m := by
          rw [maxScanStep, if_neg (fun hc => ho₀ hc.1)]
        rw [List.foldl_cons, hstep]
        obtain ⟨h1, h2, h3, h4⟩ := ih m hm hrest
        refine ⟨h1, ?_, ?_, h4⟩
        · intro e he ho
          rcases List.mem_cons.mp he with rfl | he
          · exact absurd ho ho₀
          · exact h2 e he ho
        · rcases h3 with h | ⟨e, he, hoe, hcreq⟩
          · exact Or.inl h
          · exact Or.inr ⟨e, List.mem_cons_of_mem _ he, hoe, hcreq⟩

theorem maxScan_spec (l : List Entry) (owner t : ℤ) (ht : fitsInt64 t)
    (hl : ∀ e ∈ l, entryOwner e = owner → fitsInt64 (entryCreated e)) :
    t ≤ maxScan l owner t ∧
      (∀ e ∈ l, entryOwner e = owner → entryCreated e ≤ maxScan l owner t) ∧
      (maxScan l owner t = t ∨
        ∃ e ∈ l, entryOwner e = owner ∧ entryCreated e = maxScan l owner t) ∧
      fitsInt64 (maxScan l owner t) := by
  have hw : wrapInt64 t = t := wrapInt64_eq_self t (le_of_lt ht.1) ht.2
  have h := maxScanFold_spec l owner t ht hl
  rw [maxScan, hw]
  exact h

theorem tsOf_append (l₁ l₂ : List Footprint) (P v : ℤ) :
    tsOf (l₁ ++ l₂) P v = tsOf l₁ P v ++ tsOf l₂ P v := by
  simp [tsOf, List.filter_append]

theorem tsOf_single (f : Footprint) (P v : ℤ) :
    tsOf [f] P v = if f.UserID = P ∧ f.OwnerID = v then [f.CreatedAt] else [] := by
  rw [show [f] = f :: ([] : List Footprint) from rfl, tsOf_cons]
  by_cases h : f.UserID = P ∧ f.OwnerID = v
  · rw [if_pos h, if_pos h]
    rfl
  · rw [if_neg h, if_neg h]
    rfl

theorem maxTs?_append_single (xs : List ℤ) (t : ℤ) :
    maxTs? (xs ++ [t]) =
      some (match maxTs? xs with | none => t | some M => max M t) := by
  induction xs with
  | nil => simp [maxTs?]
  | cons x xs ih =>
      rw [List.cons_append, maxTs?, ih, maxTs?]
      cases hxs : maxTs? xs with
      | none => rfl
      | some M => simp [max_assoc]

/-- The running-maximum invariant of the write-through path: once the events
`h` have been applied from an empty cache, a profile's view has a `v`-entry
exactly when `(P, v)` was visited, some `v`-entry carries the maximum
recorded timestamp, no `v`-entry exceeds it, and every cached `v`-timestamp
is one of the recorded timestamps. -/
def applyInv (h : List Footprint) (st : CacheState) : Prop :=
  ∀ P v : ℤ,
    (maxTs? (tsOf h P v) = none → ∀ e ∈ st P, entryOwner e ≠ v) ∧
    (∀ M : ℤ, maxTs? (tsOf h P v) = some M →
      (∃ e ∈ st P, entryOwner e = v ∧ entryCreated e = M) ∧
      (∀ e ∈ st P, entryOwner e = v → entryCreated e ≤ M)) ∧
    (∀ e ∈ st P, entryOwner e = v → entryCreated e ∈ tsOf h P v)

theorem applyInv_nil : applyInv [] emptyCache := by
  intro P v
  refine ⟨?_, ?_, ?_⟩
  · intro _ e he
    simp [emptyCache] at he
  · intro M hM
    simp [tsOf, maxTs?] at hM
  · intro e he
    simp [emptyCache] at he

theorem tsOf_mem_created (records : List Footprint) (P v x : ℤ)
    (hx : x ∈ tsOf records P v) : ∃ r ∈ records, r.CreatedAt = x := by
  rw [tsOf] at hx
  obtain ⟨r, hr, hrx⟩ := List.mem_map.mp hx
  exact ⟨r, List.mem_of_mem_filter hr, hrx⟩

theorem applyInv_zadd (h : List Footprint) (st : CacheState) (f : Footprint) (m s : ℤ)
    (hts : f.CreatedAt ≤ m)
    (hub : ∀ e ∈ st f.UserID, entryOwner e = f.OwnerID → entryCreated e ≤ m)
    (hcases : m = f.CreatedAt ∨
      ∃ e ∈ st f.UserID, entryOwner e = f.OwnerID ∧ entryCreated e = m)
    (hinv : applyInv h st) :
    applyInv (h ++ [f])
      (zaddState st f.UserID (Member.fp ⟨f.UserID, f.OwnerID, m, m * 1000000000⟩) s) := by
  intro P v
  by_cases hP : P = f.UserID
  case neg =>
    have hstP : zaddState st f.UserID
        (Member.fp ⟨f.UserID, f.OwnerID, m, m * 1000000000⟩) s P = st P :=
      zaddState_other _ _ _ _ _ hP
    have htsP : tsOf (h ++ [f]) P v = tsOf h P v := by
      rw [tsOf_append, tsOf_single, if_neg]
      · simp
      · rintro ⟨h1, _⟩
        exact hP h1.symm
    rw [hstP, htsP]
    exact hinv P v
  case pos =>
    subst hP
    have hmem : ∀ e : Entry,
        e ∈ zaddState st f.UserID
            (Member.fp ⟨f.UserID, f.OwnerID, m, m * 1000000000⟩) s f.UserID ↔
          e = ⟨Member.fp ⟨f.UserID, f.OwnerID, m, m * 1000000000⟩, s⟩ ∨
          (e ∈ st f.UserID ∧
            e.member ≠ Member.fp ⟨f.UserID, f.OwnerID, m, m * 1000000000⟩) := by
      intro e
      rw [zaddState_same]
      exact zadd_mem _ _ _ _
    by_cases hv : v = f.OwnerID
    case pos =>
      have htsP : tsOf (h ++ [f]) f.UserID v =
          tsOf h f.UserID v ++ [f.CreatedAt] := by
        rw [tsOf_append, tsOf_single, if_pos ⟨rfl, hv.symm⟩]
      rw [htsP]
      have hmmem : m ∈ tsOf h f.UserID v ++ [f.CreatedAt] := by
        rcases hcases with h1 | ⟨e, he, ho, hc⟩
        · rw [h1]
          exact List.mem_append_right _ (List.mem_singleton.mpr rfl)
        · exact List.mem_append_left _
            (hc ▸ (hinv f.UserID v).2.2 e he (ho.trans hv.symm))
      refine ⟨?_, ?_, ?_⟩
      · intro hnone
        rw [maxTs?_append_single] at hnone
        cases hnone
      · intro M hM
        rw [maxTs?_append_single] at hM
        cases hold : maxTs? (tsOf h f.UserID v) with
        | none =>
            rw [hold] at hM
            obtain rfl : f.CreatedAt = M := by simpa using hM
            have hnoe := (hinv f.UserID v).1 hold
            have hmeq : m = f.CreatedAt := by
              rcases hcases with h1 | ⟨e, he, ho, _⟩
              · exact h1
              · exact absurd (ho.trans hv.symm) (hnoe e he)
            constructor
            · exact ⟨⟨Member.fp ⟨f.UserID, f.OwnerID, m, m * 1000000000⟩, s⟩,
                (hmem _).mpr (Or.inl rfl), hv.symm, hmeq⟩
            · intro e he ho
              rcases (hmem e).mp he with rfl | ⟨he', _⟩
              · exact le_of_eq hmeq
              · exact absurd ho (hnoe e he')
        | some M₀ =>
            rw [hold] at hM
            obtain rfl : max M₀ f.CreatedAt = M := by simpa using hM
            obtain ⟨⟨e₀, he₀, ho₀, hc₀⟩, hub₀⟩ := (hinv f.UserID v).2.1 M₀ hold
            have hmeq : m = max M₀ f.CreatedAt := by
              apply le_antisymm
              · rcases hcases with h1 | ⟨e, he, ho, hc⟩
                · rw [h1]
                  exact le_max_right _ _
                · rw [← hc]
                  exact le_trans (hub₀ e he (ho.trans hv.symm)) (le_max_left _ _)
              · refine max_le ?_ hts
                rw [← hc₀]
                exact hub e₀ he₀ (ho₀.trans hv)
            constructor
            · exact ⟨⟨Member.fp ⟨f.UserID, f.OwnerID, m, m * 1000000000⟩, s⟩,
                (hmem _).mpr (Or.inl rfl), hv.symm, hmeq⟩
            · intro e he ho
              rcases (hmem e).mp he with rfl | ⟨he', _⟩
              · exact le_of_eq hmeq
              · rw [← hmeq]
                exact hub e he' (ho.trans hv)
      · intro e he ho
        rcases (hmem e).mp he with rfl | ⟨he', _⟩
        · exact hmmem
        · exact List.mem_append_left _ ((hinv f.UserID v).2.2 e he' ho)
    case neg =>
      have htsP : tsOf (h ++ [f]) f.UserID v = tsOf h f.UserID v := by
        rw [tsOf_append, tsOf_single, if_neg]
        · simp
        · rintro ⟨_, h2⟩
          exact hv h2.symm
      rw [htsP]
      refine ⟨?_, ?_, ?_⟩
      · intro hnone e he
        rcases (hmem e).mp he with rfl | ⟨he', _⟩
        · intro hcon
          exact hv hcon.symm
        · exact (hinv f.UserID v).1 hnone e he'
      · intro M hM
        obtain ⟨⟨e₀, he₀, ho₀, hc₀⟩, hub₀⟩ := (hinv f.UserID v).2.1 M hM
        constructor
        · refine ⟨e₀, (hmem e₀).mpr (Or.inr ⟨he₀, ?_⟩), ho₀, hc₀⟩
          intro hcon
          apply hv
          have hoo : entryOwner e₀ = f.OwnerID := by
            rw [entryOwner, hcon]
            rfl
          rw [← ho₀, hoo]
        · intro e he ho
          rcases (hmem e).mp he with rfl | ⟨he', _⟩
          · exact absurd ho (fun hcon => hv hcon.symm)
          · exact hub₀ e he' ho
      · intro e he ho
        rcases (hmem e).mp he with rfl | ⟨he', _⟩
        · exact absurd ho (fun hcon => hv hcon.symm)
        · exact (hinv f.UserID v).2.2 e he' ho

theorem applyInv_step (h : List Footprint) (st st' : CacheState) (f : Footprint)
    (hbh : ∀ r ∈ h, fitsInt64 r.CreatedAt) (hbf : fitsInt64 f.CreatedAt)
    (hinv : applyInv h st) (happ : AddFootprintCache st f = some st') :
    applyInv (h ++ [f]) st' := by
  have hfl : ∀ e ∈ st f.UserID, entryOwner e = f.OwnerID →
      fitsInt64 (entryCreated e) := by
    intro e he ho
    obtain ⟨r, hr, hrc⟩ :=
      tsOf_mem_created h f.UserID f.OwnerID (entryCreated e)
        ((hinv f.UserID f.OwnerID).2.2 e he ho)
    exact hrc ▸ hbh r hr
  rw [AddFootprintCache_eq] at happ
  by_cases hm : marshalFpOk ⟨f.UserID, f.OwnerID,
      maxScan (st f.UserID) f.OwnerID f.CreatedAt,
      maxScan (st f.UserID) f.OwnerID f.CreatedAt * 1000000000⟩ = true
  · rw [if_pos hm] at happ
    obtain rfl := Option.some_injective _ happ
    obtain ⟨h1, h2, h3, _⟩ := maxScan_spec (st f.UserID) f.OwnerID f.CreatedAt hbf hfl
    exact applyInv_zadd h st f _ _ h1 h2 (by
      rcases h3 with h | h
      · exact Or.inl h
      · exact Or.inr (by
          obtain ⟨e, he, ho, hc⟩ := h
          exact ⟨e, he, ho, hc⟩)) hinv
  · rw [if_neg hm] at happ
    cases happ

theorem applyAll_inv (l : List Footprint) :
    ∀ (h : List Footprint) (st st' : CacheState),
      (∀ r ∈ h, fitsInt64 r.CreatedAt) →
      (∀ r ∈ l, fitsInt64 r.CreatedAt) →
      applyInv h st → applyAll l st = some st' → applyInv (h ++ l) st' := by
  induction l with
  | nil =>
      intro h st st' _ _ hinv happ
      obtain rfl : st = st' := Option.some_injective _ happ
      simpa using hinv
  | cons f fs ih =>
      intro h st st' hbh hbl hinv happ
      rw [applyAll] at happ
      cases hA : AddFootprintCache st f with
      | none => rw [hA] at happ; cases happ
      | some st₁ =>
          rw [hA] at happ
          have h1 := applyInv_step h st st₁ f hbh
            (hbl f (List.mem_cons_self _ _)) hinv hA
          have hbh' : ∀ r ∈ h ++ [f], fitsInt64 r.CreatedAt := by
            intro r hr
            rcases List.mem_append.mp hr with hr' | hr'
            · exact hbh r hr'
            · exact (List.mem_singleton.mp hr') ▸ hbl f (List.mem_cons_self _ _)
          have h2 := ih (h ++ [f]) st₁ st' hbh'
            (fun r hr => hbl r (List.mem_cons_of_mem _ hr)) h1 happ
          simpa using h2

theorem maxTs?_perm (l₁ l₂ : List ℤ) (hp : l₁.Perm l₂) : maxTs? l₁ = maxTs? l₂ := by
  cases h1 : maxTs? l₁ with
  | none =>
      rw [maxTs?_eq_none_iff] at h1
      subst h1
      rw [(maxTs?_eq_none_iff l₂).mpr hp.symm.eq_nil]
  | some m =>
      obtain ⟨hm, hub⟩ := maxTs?_spec _ _ h1
      exact (maxTs?_eq_of l₂ m (hp.mem_iff.mp hm)
        (fun x hx => hub x (hp.mem_iff.mpr hx))).symm

/-- Records used to instantiate and to refute the convergence claim:
(1, 1, 50) then (1, 1, 100). -/
def exC3records : List Footprint := [⟨1, 1, 50, 50⟩, ⟨1, 1, 100, 100⟩]

/-- C3 (amended): one inclusion of the convergence claim does hold — for
records whose `UnixNano()` values do not wrap (strictly between the wrapped
zero-time instant and `2^63`, which covers every MySQL `NOW()`), every
(visitor, lastVisitAt) pair of the rebuilt view appears in the view produced
by applying the same records one at a time through `AddFootprintCache`, in
any order.  (The converse inclusion is false: the write-through view can
hold additional superseded pairs, see the counterexample.) -/
theorem C3_applyVisit_covers_rebuild :
    ∀ (applied records : List Footprint) (st₁ st₂ : CacheState),
      applied.Perm records →
      applyAll applied emptyCache = some st₁ →
      InitializeFootprints records emptyCache = some st₂ →
      (∀ r ∈ records, faithfulTs r.CreatedAt) →
      ∀ P v t : ℤ, pairIn st₂ P v t → pairIn st₁ P v t := by
  intro applied records st₁ st₂ hperm happ hinit hband P v t hpair
  obtain ⟨e, he, ho, hc⟩ := hpair
  obtain ⟨f, hf, hP, hee⟩ := (initialize_mem_empty records st₂ hinit P e).mp he
  have ho' : f.OwnerID = v := by
    rw [hee] at ho
    exact ho
  have hc' : initPass1 records ⟨f.UserID, f.OwnerID⟩ = t := by
    rw [hee] at hc
    exact hc
  have hne : tsOf records P v ≠ [] := by
    intro h0
    have hmem := tsOf_mem_of_record records f hf P v hP ho'
    rw [h0] at hmem
    simp at hmem
  have hmaxr : maxTs? (tsOf records P v) = some t := by
    rw [initPass1_eq_maxTs? records P v hband hne, ← hc', hP, ho']
  have hpts : maxTs? (tsOf applied P v) = maxTs? (tsOf records P v) :=
    maxTs?_perm _ _ ((hperm.filter _).map _)
  have hmaxa : maxTs? (tsOf applied P v) = some t := by rw [hpts]; exact hmaxr
  have hinv : applyInv applied st₁ := by
    have h0 := applyAll_inv applied [] emptyCache st₁ (by intro r hr; cases hr)
      (fun r hr => faithfulTs_fits _ (hband r (hperm.subset hr))) applyInv_nil happ
    simpa using h0
  obtain ⟨⟨e', he', ho'', hc''⟩, _⟩ := (hinv P v).2.1 t hmaxa
  exact ⟨e', he', ho'', hc''⟩

/-- C3 witness: the inclusion applied to the concrete records (1,1,50),
(1,1,100) in their given order, all hypotheses discharged by computation. -/
theorem C3_applyVisit_covers_rebuild_witness :
    pairIn ((applyAll exC3records emptyCache).getD emptyCache) 1 1 100 :=
  C3_applyVisit_covers_rebuild exC3records exC3records
    ((applyAll exC3records emptyCache).getD emptyCache)
    ((InitializeFootprints exC3records emptyCache).getD emptyCache)
    (List.Perm.refl _) rfl rfl
    (by intro r hr; fin_cases hr <;> exact ⟨by decide, by decide⟩) 1 1 100
    ⟨⟨Member.fp ⟨1, 1, 100, 100⟩, -100⟩, by decide, rfl, rfl⟩

/-- C3 counterexample: applying (1,1,50) then (1,1,100) from an empty cache
(the identity permutation of the record set) leaves the superseded pair
(visitor 1, timestamp 50) in the write-through view, while the rebuilt view
of the same records does not contain it — the two views are not equal as
sets of (visitor, lastVisitAt) entries, refuting the claim. -/
theorem C3_convergence_counterexample :
    (applyAll exC3records emptyCache).isSome = true ∧
    (InitializeFootprints exC3records emptyCache).isSome = true ∧
    pairIn ((applyAll exC3records emptyCache).getD emptyCache) 1 1 50 ∧
    ¬ pairIn ((InitializeFootprints exC3records emptyCache).getD emptyCache) 1 1 50 := by
  refine ⟨by decide, by decide,
    ⟨⟨Member.fp ⟨1, 1, 50, 50000000000⟩, -50⟩, by decide, rfl, rfl⟩, ?_⟩
  rintro ⟨e, he, ho, hc⟩
  have hL : ((InitializeFootprints exC3records emptyCache).getD emptyCache) 1
      = [⟨Member.fp ⟨1, 1, 100, 100⟩, -100⟩] := by decide
  rw [hL] at he
  have he' : e = ⟨Member.fp ⟨1, 1, 100, 100⟩, -100⟩ := by simpa using he
  rw [he'] at hc
  exact absurd hc (by decide)

theorem zrangeList_nonneg (l : List Entry) (stop : ℤ) (h : 0 ≤ stop) :
    zrangeList l 0 stop = l.take (stop.toNat + 1) := by
  simp only [zrangeList]
  rw [if_neg (not_lt.mpr h), if_neg (not_lt.mpr h)]
  simp

theorem entryLtB_score_le (a b : Entry) (h : entryLtB a b = true) :
    a.score ≤ b.score := by
  rw [entryLtB] at h
  by_cases h1 : a.score < b.score
  · exact le_of_lt h1
  · rw [if_neg h1] at h
    by_cases h2 : a.score = b.score
    · exact le_of_eq h2
    · rw [if_neg h2] at h
      cases h

/-- The event-store rows behind the C4 counterexample: visitors 2 and 10
both leave their last footprint on profile 1 at timestamp 100. -/
def stC4records : List Footprint :=
  [⟨1, 2, 100, zeroTimeUnixNano⟩, ⟨1, 10, 100, zeroTimeUnixNano⟩]

/-- The rebuilt cache state over `stC4records`. -/
def stC4cex : CacheState :=
  (InitializeFootprints stC4records emptyCache).getD emptyCache

/-- C4 (amended): `FetchFootprintsCache(profileID, limit)` returns, for any
sorted stored view and any `limit ≥ 1`, at most `limit` entries and at most
as many as the view holds, enumerated in non-increasing order of the stored
score rank (equal stored timestamps are ordered by the byte order of the
serialized entries, not by ascending visitorID), and with each visitor at
most once provided the stored view itself holds each visitor at most once.
The returned `CreatedAt` fields are the stored timestamps truncated to JST
dates, so the returned values themselves need not strictly descend. -/
theorem C4_query_order_amended :
    ∀ (st : CacheState) (P limit : ℤ),
      viewSorted (st P) →
      1 ≤ limit →
      ((FetchFootprintsCache st P limit).length : ℤ) ≤ limit ∧
      (FetchFootprintsCache st P limit).length ≤ (st P).length ∧
      List.Chain' (fun a b => a.score ≤ b.score) (zrangeList (st P) 0 (limit - 1)) ∧
      (((st P).map entryOwner).Nodup →
        ((FetchFootprintsCache st P limit).map (fun f => f.OwnerID)).Nodup) := by
  intro st P limit hsort hlim
  have hz : zrangeList (st P) 0 (limit - 1) = (st P).take ((limit - 1).toNat + 1) :=
    zrangeList_nonneg _ _ (by omega)
  have hlen : (FetchFootprintsCache st P limit).length =
      min ((limit - 1).toNat + 1) (st P).length := by
    rw [FetchFootprintsCache, List.length_map, hz, List.length_take]
  refine ⟨?_, ?_, ?_, ?_⟩
  · rw [hlen]
    have h1 : ((limit - 1).toNat : ℤ) = limit - 1 := Int.toNat_of_nonneg (by omega)
    have h2 : min ((limit - 1).toNat + 1) (st P).length ≤ (limit - 1).toNat + 1 :=
      min_le_left _ _
    omega
  · rw [hlen]
    exact min_le_right _ _
  · rw [hz]
    exact (hsort.take _).imp (fun a b => entryLtB_score_le a b)
  · intro hnd
    have hsub : List.Sublist (zrangeList (st P) 0 (limit - 1)) (st P) := by
      rw [hz]
      exact List.take_sublist _ _
    have hnd2 : ((zrangeList (st P) 0 (limit - 1)).map entryOwner).Nodup :=
      hnd.sublist (hsub.map entryOwner)
    have hmm : (FetchFootprintsCache st P limit).map (fun f => f.OwnerID)
        = (zrangeList (st P) 0 (limit - 1)).map entryOwner := by
      rw [FetchFootprintsCache, List.map_map]
      rfl
    rw [hmm]
    exact hnd2

/-- C4 witness: the amended statement applied to the rebuilt two-visitor
state and `limit = 10`, hypotheses discharged by computation. -/
theorem C4_query_order_amended_witness :
    ((FetchFootprintsCache stC4cex 1 10).length : ℤ) ≤ 10 ∧
    (FetchFootprintsCache stC4cex 1 10).length ≤ (stC4cex 1).length ∧
    List.Chain' (fun a b => a.score ≤ b.score) (zrangeList (stC4cex 1) 0 (10 - 1)) ∧
    (((stC4cex 1).map entryOwner).Nodup →
      ((FetchFootprintsCache stC4cex 1 10).map (fun f => f.OwnerID)).Nodup) :=
  C4_query_order_amended stC4cex 1 10
    (by
      unfold viewSorted
      rw [show stC4cex 1 =
          [⟨Member.fp ⟨1, 10, 100, 100⟩, -100⟩, ⟨Member.fp ⟨1, 2, 100, 100⟩, -100⟩] from by
        decide]
      exact List.chain'_cons.mpr ⟨by decide, List.chain'_singleton _⟩)
    (by decide)

/-- C4 counterexample: on the rebuilt state over `stC4records` the query
returns visitor 10 before visitor 2 (Redis breaks the equal-score tie by the
serialized JSON bytes, where "10" sorts before "2") with both returned
timestamps truncated to the same JST date — so the result is neither
strictly descending by `lastVisitAt` nor tie-broken by ascending visitorID,
refuting the claimed ordering. -/
theorem C4_query_order_counterexample :
    (FetchFootprintsCache stC4cex 1 10).map (fun f => f.OwnerID) = [10, 2] ∧
    (FetchFootprintsCache stC4cex 1 10).map (fun f => f.CreatedAt) =
      [-32400000000000, -32400000000000] ∧
    ¬ specQueryOrdered (FetchFootprintsCache stC4cex 1 10) := by
  refine ⟨by decide, by decide, ?_⟩
  intro hord
  rw [specQueryOrdered] at hord
  rw [show FetchFootprintsCache stC4cex 1 10 =
      [⟨1, 10, -32400000000000, 100⟩, ⟨1, 2, -32400000000000, 100⟩] from by decide] at hord
  have hR := (List.chain'_cons.mp hord).1
  rcases hR with h | ⟨_, h⟩
  · exact absurd h (by decide)
  · exact absurd h (by decide)

/-- A stored view holding one undecodable entry (score −90) between two
decodable ones. -/
def stC5view : List Entry :=
  [⟨Member.fp ⟨1, 1, 100, 100⟩, -100⟩, ⟨Member.raw "corrupt", -90⟩,
   ⟨Member.fp ⟨1, 2, 80, 80⟩, -80⟩]

/-- A cache whose view for profile 1 is `stC5view`. -/
def stC5 : CacheState := updFun emptyCache 1 stC5view

/-- C5 (amended): a stored entry that fails to decode never aborts
`FetchFootprintsCache` and never surfaces an error to the caller, and every
decodable entry in range is still returned; but the offending entry is NOT
skipped (nor logged): the reader ignores the decode error and returns one
footprint per stored entry in range, the undecodable one as the decoded zero
value. -/
theorem C5_query_decode_failure :
    ∀ (st : CacheState) (P limit : ℤ),
      (1 ≤ limit → (FetchFootprintsCache st P limit).length =
          min ((limit - 1).toNat + 1) (st P).length) ∧
      (∀ e ∈ zrangeList (st P) 0 (limit - 1),
        fetchDecode e.member ∈ FetchFootprintsCache st P limit) ∧
      (FetchFootprintsCache st P limit).length =
        (zrangeList (st P) 0 (limit - 1)).length := by
  intro st P limit
  refine ⟨?_, ?_, ?_⟩
  · intro hlim
    rw [FetchFootprintsCache, List.length_map, zrangeList_nonneg _ _ (by omega),
      List.length_take]
  · intro e he
    rw [FetchFootprintsCache]
    exact List.mem_map.mpr ⟨e, he, rfl⟩
  · rw [FetchFootprintsCache, List.length_map]

/-- C5 witness: the amended statement applied to the three-entry view with
one corrupt member, hypotheses discharged by computation. -/
theorem C5_query_decode_failure_witness :
    (FetchFootprintsCache stC5 1 10).length = min (((10 : ℤ) - 1).toNat + 1) (stC5 1).length ∧
    fetchDecode (Member.raw "corrupt") ∈ FetchFootprintsCache stC5 1 10 :=
  ⟨(C5_query_decode_failure stC5 1 10).1 (by decide),
   (C5_query_decode_failure stC5 1 10).2.1 ⟨Member.raw "corrupt", -90⟩ (by decide)⟩

/-- C5 counterexample: with exactly one undecodable entry among three stored
entries, the query returns THREE footprints — the offending entry is not
skipped but comes back as the zero value (visitor 0) between the two
decodable ones — refuting the claim that it is skipped and only the
remaining decodable entries are returned. -/
theorem C5_query_decode_failure_counterexample :
    (FetchFootprintsCache stC5 1 10).length = 3 ∧
    (FetchFootprintsCache stC5 1 10).map (fun f => f.OwnerID) = [1, 0, 2] := by
  constructor
  · decide
  · decide

/-- C6 (amended): the recovery dispatch in the web app's `GetInitialize`
defaults to replay, not rebuild: `LoadRedisAof` runs exactly when
`ISUCON5_REDIS_LOAD_AOF` is unset or empty, and a nonempty value skips
replay entirely (no rebuild runs in its place). -/
theorem C6_recovery_default_amended :
    ∀ (flag : String) (aofExists pipeOk : Bool),
      ((GetInitializeRecovery flag aofExists pipeOk).1 = true ↔ flag = "") ∧
      (flag ≠ "" → GetInitializeRecovery flag aofExists pipeOk = (false, .ready)) := by
  intro flag a p
  constructor
  · constructor
    · intro h
      by_cases hf : flag = ""
      · exact hf
      · rw [GetInitializeRecovery, if_neg hf] at h
        cases h
    · intro h
      rw [GetInitializeRecovery, if_pos h]
  · intro h
    rw [GetInitializeRecovery, if_neg h]

/-- C6 witness: a nonempty flag value skips the replay. -/
theorem C6_recovery_default_amended_witness :
    GetInitializeRecovery "1" true true = (false, .ready) :=
  (C6_recovery_default_amended "1" true true).2 (by decide)

/-- C6 counterexample: with the flag unset/empty the replay DOES run —
`GetInitialize` calls `LoadRedisAof` precisely in the empty case — refuting
the claim that an unset or empty flag performs no replay. -/
theorem C6_recovery_default_counterexample :
    (GetInitializeRecovery "" true true).1 = true ∧
    GetInitializeRecovery "" true true = (true, .ready) := by
  constructor
  · rfl
  · rfl

/-- C8: when replay runs and the appendonly file is absent, both embedded
`LoadRedisAof` variants end in the Fatal state (the Go code `log.Fatalf`s),
aborting startup rather than continuing with partial or empty cache state;
in particular the web app's initialize path with replay selected (empty
flag) ends fatal. -/
theorem C8_replay_missing_log_fatal :
    ∀ (flushOk pipeOk : Bool),
      (LoadRedisAofSeed flushOk false pipeOk).isFatal = true ∧
      (LoadRedisAofWeb false pipeOk).isFatal = true ∧
      ((GetInitializeRecovery "" false pipeOk).2).isFatal = true := by
  intro flushOk pipeOk
  refine ⟨?_, ?_, ?_⟩
  · cases flushOk <;> rfl
  · rfl
  · rfl

/-- The event store behind the C7 scenario: one footprint (1, 1, 100). -/
def recsC7 : List Footprint := [⟨1, 1, 100, zeroTimeUnixNano⟩]

/-- A prior cache state with a stale entry for visitor 9 on profile 1 that
no event-store row supports. -/
def stC7stale : CacheState :=
  updFun emptyCache 1 [⟨Member.fp ⟨1, 9, 999, 999⟩, -999⟩]

/-- C7 (amended/corrected): `InitializeFootprints` performs no flush: for any
prior cache state, the post-rebuild view of each profile consists of the
canonical entries derived from the current event store plus every prior
entry whose serialization differs from all of them — stale visitors survive
a rebuild.  Only over an empty prior cache does the view contain exclusively
event-store-derived entries. -/
theorem C7_rebuild_no_flush :
    ∀ (records : List Footprint) (st st' : CacheState),
      InitializeFootprints records st = some st' →
      ∀ (P : ℤ) (e : Entry),
        e ∈ st' P ↔
          ((∃ f ∈ records, f.UserID = P ∧
              e = ⟨Member.fp (canonicalOf (initPass1 records) f),
                    wrapInt64 (-(wrapInt64 (initPass1 records ⟨f.UserID, f.OwnerID⟩)))⟩) ∨
           (e ∈ st P ∧ ¬ ∃ f ∈ records, f.UserID = P ∧
              e.member = Member.fp (canonicalOf (initPass1 records) f))) := by
  intro records st st' h P e
  exact initialize_mem records st st' h P e

/-- C7 witness: the characterization applied to the stale one-entry state,
its hypotheses discharged by computation; the stale entry is in the
post-rebuild view because it survives (right disjunct). -/
theorem C7_rebuild_no_flush_witness :
    (⟨Member.fp ⟨1, 9, 999, 999⟩, -999⟩ : Entry) ∈
      ((InitializeFootprints recsC7 stC7stale).getD emptyCache) 1 :=
  (C7_rebuild_no_flush recsC7 stC7stale
      ((InitializeFootprints recsC7 stC7stale).getD emptyCache) rfl 1
      ⟨Member.fp ⟨1, 9, 999, 999⟩, -999⟩).mpr
    (Or.inr ⟨by decide, by decide⟩)

/-- C7 counterexample: rebuilding over a cache that still holds a stale
entry for visitor 9 — a visitor recorded by no event-store row — leaves that
entry in profile 1's view, refuting the claim that the stale view is flushed
and the post-rebuild view holds only event-store-derived entries. -/
theorem C7_rebuild_no_flush_counterexample :
    (InitializeFootprints recsC7 stC7stale).isSome = true ∧
    (⟨Member.fp ⟨1, 9, 999, 999⟩, -999⟩ : Entry) ∈
      ((InitializeFootprints recsC7 stC7stale).getD emptyCache) 1 ∧
    ∀ f ∈ recsC7, f.OwnerID ≠ 9 := by
  refine ⟨by decide, by decide, by decide⟩
